import Mathlib

/-!
# PaletteCardCollection

A shallow embedding of `AzQtComponents::PaletteCardCollection`
(`PaletteCardCollection.cpp`) and the properties of its operations.

The collection stores shared pointers to card widgets.  A card is therefore
represented by its identity (`CardId`), the card objects live in a heap that
maps an identity to the card's attributes, and the collection holds a list of
identities.  Calls made on collaborators (layout, signal connections, card
setters) and emitted signals are recorded, in order, in a trace.
-/

namespace AzQtComponents

/-! ## Qt value types -/

/-- A `QChar`: one character of a `QString`. -/
abbrev QChar := Char

/-- A `QString`: a finite sequence of characters, compared element by element. -/
abbrev QString := List QChar

/-- A `qreal` (C++ `double`), kept as its 64-bit pattern.  It is only stored, copied and
handed to `qFuzzyCompare`; no arithmetic is performed on it here. -/
structure qreal where
  bits : Nat
deriving DecidableEq, Repr

/-- A `QSize`: two `int` fields, compared field by field by `operator==`. -/
structure QSize where
  width : Int
  height : Int
deriving DecidableEq, Repr

/-- The largest value of a C++ `int` (32 bits, two's complement). -/
def INT_MAX : Nat := 2147483647

/-- The text `QString::arg(int)` substitutes for a non-negative number in the C locale:
its decimal digits, most significant first, without padding. -/
def decimal (n : Nat) : QString := Nat.toDigits 10 n

/-- The behaviour of the Qt library that the program text does not determine: the Unicode
character tables outside ASCII, the integer formatting of the default `QLocale`
(used by `%L` place markers) and `qFuzzyCompare`.  The locale prints a number by rewriting
its decimal digits (`localize`: other digit characters, group separators); the two laws say
that different digit strings are printed differently and that a longer digit string is
never printed shorter than a shorter one. -/
structure Qt where
  isDigitTable : QChar → Bool
  digitValueTable : QChar → Option Nat
  localize : QString → QString
  qFuzzyCompare : qreal → qreal → Bool
  localize_inj : ∀ a b : QString, localize a = localize b → a = b
  localize_len : ∀ a b : QString, a.length ≤ b.length → (localize a).length ≤ (localize b).length

/-- `QChar::isDigit`: the ASCII digits, and beyond ASCII whatever the Unicode table says. -/
def QChar.isDigit (qt : Qt) (c : QChar) : Bool :=
  if c.toNat < 128 then decide (48 ≤ c.toNat ∧ c.toNat ≤ 57) else qt.isDigitTable c

/-- `QChar::digitValue`: `none` stands for the result `-1`. -/
def QChar.digitValue (qt : Qt) (c : QChar) : Option Nat :=
  if c.toNat < 128 then
    (if 48 ≤ c.toNat ∧ c.toNat ≤ 57 then some (c.toNat - 48) else none)
  else qt.digitValueTable c

/-! ## `QString::arg`

`QString::arg` replaces every occurrence of the lowest numbered place marker of the
string.  A place marker is `%`, an optional `L`, and one or two digits.  A chained call
`s.arg(a).arg(b)` therefore looks for place markers again in the result of `s.arg(a)`,
including those that came in with `a`: in the words of the Qt documentation,
`QString("%1 %2").arg("%1f").arg("Hello")` is `Hellof %2`, not `%1f Hello`.

The scan below follows `findArgEscapes` and `replaceArgEscapes` of `qstring.cpp`: after `%`
and an optional `L` a character with a digit value starts a marker, a second such
character extends it, and anything else leaves the characters read so far as ordinary
text and is itself scanned again. -/

/-- A piece of a scanned string: an ordinary character, or a place marker with its number,
its `L` flag and the characters it was written with. -/
inductive ArgPiece where
  | text (c : QChar)
  | escape (number : Nat) (locale : Bool) (raw : QString)
deriving DecidableEq, Repr

/-- Where the place marker scanner stands: in ordinary text, after `%`, after `%L`, or
after the first digit of a marker. -/
inductive ArgScan where
  | plain
  | percent
  | percentL
  | digit (value : Nat) (locale : Bool) (raw : QString)
deriving DecidableEq, Repr

/-- What an unfinished marker amounts to at the end of the string. -/
def ArgScan.flush : ArgScan → List ArgPiece
  | .plain => []
  | .percent => [.text '%']
  | .percentL => [.text '%', .text 'L']
  | .digit v l raw => [.escape v l raw]

/-- Scanning a character in ordinary text. -/
def ArgScan.plainStep (c : QChar) : List ArgPiece × ArgScan :=
  if c = '%' then ([], .percent) else ([.text c], .plain)

/-- One character of the scan: the pieces completed by it and the next scanner state.  A
character that does not continue a marker is scanned again as ordinary text. -/
def ArgScan.step (qt : Qt) : ArgScan → QChar → List ArgPiece × ArgScan
  | .plain, c => ArgScan.plainStep c
  | .percent, c =>
    if c = 'L' then ([], .percentL)
    else match QChar.digitValue qt c with
      | some v => ([], .digit v false ['%', c])
      | none => (.text '%' :: (ArgScan.plainStep c).1, (ArgScan.plainStep c).2)
  | .percentL, c =>
    match QChar.digitValue qt c with
    | some v => ([], .digit v true ['%', 'L', c])
    | none => (.text '%' :: .text 'L' :: (ArgScan.plainStep c).1, (ArgScan.plainStep c).2)
  | .digit v l raw, c =>
    match QChar.digitValue qt c with
    | some w => ([.escape (10 * v + w) l (raw ++ [c])], .plain)
    | none => (.escape v l raw :: (ArgScan.plainStep c).1, (ArgScan.plainStep c).2)

/-- The pieces of a string, scanned from the given state (`findArgEscapes`). -/
def findArgEscapes (qt : Qt) : ArgScan → QString → List ArgPiece
  | st, [] => st.flush
  | st, c :: cs => (st.step qt c).1 ++ findArgEscapes qt (st.step qt c).2 cs

/-- The lowest place marker number among the pieces, if there is a marker. -/
def minEscape : List ArgPiece → Option Nat
  | [] => none
  | .text _ :: ps => minEscape ps
  | .escape n _ _ :: ps =>
    match minEscape ps with
    | none => some n
    | some m => some (min n m)

/-- The string with every marker numbered `m` replaced (`replaceArgEscapes`): by `larg` when
the marker carries the `L` flag and by `arg` otherwise.  Other markers stay as written. -/
def replaceArgEscapes (m : Nat) (arg larg : QString) : List ArgPiece → QString
  | [] => []
  | .text c :: ps => c :: replaceArgEscapes m arg larg ps
  | .escape n l raw :: ps =>
    (if n = m then (if l then larg else arg) else raw) ++ replaceArgEscapes m arg larg ps

/-- `QString::arg(const QString&)` with the default field width.  A string without place
marker is returned unchanged. -/
def QString.arg (qt : Qt) (s a : QString) : QString :=
  match minEscape (findArgEscapes qt .plain s) with
  | none => s
  | some m => replaceArgEscapes m a a (findArgEscapes qt .plain s)

/-- `QString::arg(int)` for a non-negative number, with the default field width and base 10. -/
def QString.argInt (qt : Qt) (s : QString) (a : Nat) : QString :=
  match minEscape (findArgEscapes qt .plain s) with
  | none => s
  | some m => replaceArgEscapes m (decimal a) (qt.localize (decimal a)) (findArgEscapes qt .plain s)

/-! ## Cards and the collection -/

/-- The identity of a card: what a `QSharedPointer<PaletteCard>` points to. -/
abbrev CardId := Nat

/-- The identity of a palette: what a `QSharedPointer<Palette>` points to. -/
abbrev PaletteId := Nat

/-- Modelled from the spec: the class `PaletteCard` (PaletteCard.h and PaletteCard.cpp are
not among the sources).  A card has a title, a swatch size, a gamma-enabled flag, a gamma
value and the palette it shows. -/
structure PaletteCard where
  palette : PaletteId
  title : QString
  swatchSize : QSize
  gammaEnabled : Bool
  gamma : qreal
deriving DecidableEq, Repr

/-- Modelled from the spec: `PaletteCard::setTitle`, which is not among the sources, stores
the title. -/
def PaletteCard.setTitle (c : PaletteCard) (t : QString) : PaletteCard := { c with title := t }

/-- Modelled from the spec: `PaletteCard::setSwatchSize`, which is not among the sources,
stores the size. -/
def PaletteCard.setSwatchSize (c : PaletteCard) (size : QSize) : PaletteCard :=
  { c with swatchSize := size }

/-- Modelled from the spec: `PaletteCard::setGammaEnabled`, which is not among the sources,
stores the flag. -/
def PaletteCard.setGammaEnabled (c : PaletteCard) (enabled : Bool) : PaletteCard :=
  { c with gammaEnabled := enabled }

/-- Modelled from the spec: `PaletteCard::setGamma`, which is not among the sources, stores
the value. -/
def PaletteCard.setGamma (c : PaletteCard) (g : qreal) : PaletteCard := { c with gamma := g }

/-- What the collection does to the outside, in the order it does it: signals it emits,
connections it makes, layout and parent changes, and setter calls on cards. -/
inductive Effect where
  | paletteCountChanged
  | connectRemoveClicked (card : CardId)
  | connectSaveClicked (card : CardId)
  | connectColorSelected (card : CardId)
  | layoutAddWidget (card : CardId)
  | layoutRemoveWidget (card : CardId)
  | setParentNull (card : CardId)
  | cardSetTitle (card : CardId) (title : QString)
  | cardSetSwatchSize (card : CardId) (size : QSize)
  | cardSetGammaEnabled (card : CardId) (enabled : Bool)
  | cardSetGamma (card : CardId) (g : qreal)
deriving DecidableEq, Repr

/-- The state of a `PaletteCardCollection` together with the card objects it can refer to.
`heap` gives the attributes of every card object, `nextCard` is the identity the next
`QSharedPointer<PaletteCard>::create` returns, the `m_` fields are the members of the class
and `trace` records the effects so far. -/
structure PaletteCardCollection where
  heap : CardId → PaletteCard
  nextCard : CardId
  m_paletteCards : List CardId
  m_swatchSize : QSize
  m_gammaEnabled : Bool
  m_gamma : qreal
  trace : List Effect

namespace PaletteCardCollection

/-- The titles of the held cards, in display order. -/
def titles (s : PaletteCardCollection) : List QString :=
  s.m_paletteCards.map (fun card => (s.heap card).title)

/-- The collection after its constructor: no card, swatch size 16 x 16.  The initial values of
`m_gammaEnabled` and `m_gamma` are set in the class declaration, which is not among the
sources, and are taken as arguments. -/
def init (heap : CardId → PaletteCard) (gammaEnabled : Bool) (gamma : qreal) :
    PaletteCardCollection :=
  { heap := heap, nextCard := 0, m_paletteCards := [], m_swatchSize := ⟨16, 16⟩,
    m_gammaEnabled := gammaEnabled, m_gamma := gamma, trace := [] }

/-- A setter call on a card object: the object changes and the call is recorded. -/
def callCard (s : PaletteCardCollection) (card : CardId) (f : PaletteCard → PaletteCard)
    (e : Effect) : PaletteCardCollection :=
  { s with heap := Function.update s.heap card (f (s.heap card)), trace := s.trace ++ [e] }

/-- The lambda `paletteNameExists` of `uniquePaletteName`: `std::find_if` over the held cards
finds one whose title equals `name`. -/
def paletteNameExists (s : PaletteCardCollection) (name : QString) : Bool :=
  s.m_paletteCards.any (fun card => decide (name = (s.heap card).title))

/-- The statement `QStringLiteral("%1%2").arg(baseName).arg(lastNumber)`. -/
def newName (qt : Qt) (baseName : QString) (lastNumber : Nat) : QString :=
  QString.argInt qt (QString.arg qt ['%', '1', '%', '2'] baseName) lastNumber

/-- The `while (true)` loop of `uniquePaletteName`.  The first argument counts the values of
`int` from `lastNumber` up to `INT_MAX`; when none is left, `++lastNumber` would overflow
and there is no result (`none`). -/
def uniquePaletteNameLoop (qt : Qt) (s : PaletteCardCollection) (baseName : QString) :
    Nat → Nat → Option QString
  | 0, _ => none
  | left + 1, lastNumber =>
    if !s.paletteNameExists (newName qt baseName lastNumber) then
      some (newName qt baseName lastNumber)
    else uniquePaletteNameLoop qt s baseName left (lastNumber + 1)

/-- The length of the prefix `name.left(...)` keeps: the distance from `name.begin()` to
`lastDigit.base()`, where `lastDigit` is the first non-digit met from the end. -/
def lastDigitBase (qt : Qt) (name : QString) : Nat :=
  (name.reverse.dropWhile (QChar.isDigit qt)).length

/-- `PaletteCardCollection::uniquePaletteName`.  The argument `card` is captured by the
lambda and not used. -/
def uniquePaletteName (qt : Qt) (s : PaletteCardCollection) (_card : CardId)
    (name : QString) : Option QString :=
  if !s.paletteNameExists name then some name
  else uniquePaletteNameLoop qt s (name.take (lastDigitBase qt name)) INT_MAX 1

/-- `PaletteCardCollection::makeCard`: a new card object is created, titled with the unique
name and given the three defaults.  The attributes the constructor of `PaletteCard`
leaves in the new object are all overwritten by the four setter calls.  The result is the
new card and the state, or `none` if `uniquePaletteName` has no result. -/
def makeCard (qt : Qt) (s : PaletteCardCollection) (palette : PaletteId) (title : QString) :
    Option (CardId × PaletteCardCollection) :=
  let card := s.nextCard
  let s0 : PaletteCardCollection :=
    { s with heap := Function.update s.heap card ⟨palette, [], ⟨0, 0⟩, false, ⟨0⟩⟩,
             nextCard := s.nextCard + 1 }
  match uniquePaletteName qt s0 card title with
  | none => none
  | some t =>
    let s1 := s0.callCard card (fun c => c.setTitle t) (.cardSetTitle card t)
    let s2 := s1.callCard card (fun c => c.setSwatchSize s.m_swatchSize)
      (.cardSetSwatchSize card s.m_swatchSize)
    let s3 := s2.callCard card (fun c => c.setGammaEnabled s.m_gammaEnabled)
      (.cardSetGammaEnabled card s.m_gammaEnabled)
    let s4 := s3.callCard card (fun c => c.setGamma s.m_gamma) (.cardSetGamma card s.m_gamma)
    some (card, s4)

/-- `PaletteCardCollection::addCard`. -/
def addCard (s : PaletteCardCollection) (card : CardId) : PaletteCardCollection :=
  { s with
    m_paletteCards := s.m_paletteCards ++ [card],
    trace := s.trace ++ [.connectRemoveClicked card, .connectSaveClicked card,
      .connectColorSelected card, .layoutAddWidget card, .paletteCountChanged] }

/-- `PaletteCardCollection::removeCard`: `std::find` looks for the first position holding the
card; if there is one, that position is erased. The signal is emitted in both cases. -/
def removeCard (s : PaletteCardCollection) (card : CardId) : PaletteCardCollection :=
  if card ∈ s.m_paletteCards then
    { s with
      m_paletteCards := s.m_paletteCards.erase card,
      trace := s.trace ++ [.layoutRemoveWidget card, .setParentNull card, .paletteCountChanged] }
  else
    { s with trace := s.trace ++ [.paletteCountChanged] }

/-- `PaletteCardCollection::containsCard`: pointer comparison with the held cards. -/
def containsCard (s : PaletteCardCollection) (card : CardId) : Bool :=
  s.m_paletteCards.contains card

/-- `PaletteCardCollection::setSwatchSize`. -/
def setSwatchSize (s : PaletteCardCollection) (size : QSize) : PaletteCardCollection :=
  if size = s.m_swatchSize then s
  else
    s.m_paletteCards.foldl
      (fun st card => st.callCard card (fun c => c.setSwatchSize size)
        (.cardSetSwatchSize card size))
      { s with m_swatchSize := size }

/-- `PaletteCardCollection::setGammaEnabled`. -/
def setGammaEnabled (s : PaletteCardCollection) (enabled : Bool) : PaletteCardCollection :=
  if enabled = s.m_gammaEnabled then s
  else
    s.m_paletteCards.foldl
      (fun st card => st.callCard card (fun c => c.setGammaEnabled enabled)
        (.cardSetGammaEnabled card enabled))
      { s with m_gammaEnabled := enabled }

/-- `PaletteCardCollection::setGamma`. -/
def setGamma (qt : Qt) (s : PaletteCardCollection) (gamma : qreal) : PaletteCardCollection :=
  if qt.qFuzzyCompare gamma s.m_gamma then s
  else
    s.m_paletteCards.foldl
      (fun st card => st.callCard card (fun c => c.setGamma gamma) (.cardSetGamma card gamma))
      { s with m_gamma := gamma }

/-- `PaletteCardCollection::count`. -/
def count (s : PaletteCardCollection) : Nat := s.m_paletteCards.length

/-! ## Sequences of operations -/

/-- A call of `addCard` or `removeCard`. -/
inductive CardOp where
  | addCard (card : CardId)
  | removeCard (card : CardId)
deriving DecidableEq, Repr

/-- The state after one call. -/
def CardOp.apply (s : PaletteCardCollection) : CardOp → PaletteCardCollection
  | .addCard card => s.addCard card
  | .removeCard card => s.removeCard card

/-- The state after a sequence of calls, made in order. -/
def runCardOps (s : PaletteCardCollection) : List CardOp → PaletteCardCollection
  | [] => s
  | op :: ops => runCardOps (op.apply s) ops

/-- The number of `addCard` calls in a sequence. -/
def addCalls : List CardOp → Nat
  | [] => 0
  | .addCard _ :: ops => 1 + addCalls ops
  | .removeCard _ :: ops => addCalls ops

/-- The number of `removeCard` calls of a sequence, started in state `s`, that found their
card in the collection. -/
def successfulRemoves (s : PaletteCardCollection) : List CardOp → Nat
  | [] => 0
  | .addCard card :: ops => successfulRemoves (s.addCard card) ops
  | .removeCard card :: ops =>
    (if s.containsCard card then 1 else 0) + successfulRemoves (s.removeCard card) ops

/-- Following one card through a sequence of calls: the flag is raised by `addCard(card)`,
lowered by `removeCard(card)` and left alone by calls for other cards. -/
def trackCard (card : CardId) (flag : Bool) : List CardOp → Bool
  | [] => flag
  | .addCard c :: ops => trackCard card (if c = card then true else flag) ops
  | .removeCard c :: ops => trackCard card (if c = card then false else flag) ops

/-- Whether, at the end of a sequence of calls, `card` has been added by some `addCard(card)`
and no `removeCard(card)` has been called since `card` was last added. -/
def addedAndNotRemovedSince (card : CardId) (ops : List CardOp) : Bool :=
  trackCard card false ops

/-- Whether no `addCard` of a sequence, started in state `s`, adds a card the collection
holds at that moment. -/
def addsOnlyAbsent (s : PaletteCardCollection) : List CardOp → Bool
  | [] => true
  | .addCard card :: ops => !s.containsCard card && addsOnlyAbsent (s.addCard card) ops
  | .removeCard card :: ops => addsOnlyAbsent (s.removeCard card) ops

/-- A call of one of the public operations. -/
inductive Op where
  | makeCard (palette : PaletteId) (title : QString)
  | addCard (card : CardId)
  | removeCard (card : CardId)
  | setSwatchSize (size : QSize)
  | setGammaEnabled (enabled : Bool)
  | setGamma (gamma : qreal)
deriving DecidableEq, Repr

/-- The state after one call, when the call has a result.  The card `makeCard` returns is
the next identity, so the cards made from the constructor's state on are `0`, `1`, ... -/
def Op.apply (qt : Qt) (s : PaletteCardCollection) : Op → Option PaletteCardCollection
  | .makeCard palette title => (s.makeCard qt palette title).map Prod.snd
  | .addCard card => some (s.addCard card)
  | .removeCard card => some (s.removeCard card)
  | .setSwatchSize size => some (s.setSwatchSize size)
  | .setGammaEnabled enabled => some (s.setGammaEnabled enabled)
  | .setGamma gamma => some (s.setGamma qt gamma)

/-- The state after a sequence of calls, made in order. -/
def runOps (qt : Qt) (s : PaletteCardCollection) : List Op → Option PaletteCardCollection
  | [] => some s
  | op :: ops =>
    match op.apply qt s with
    | none => none
    | some s1 => runOps qt s1 ops

/-- A call of one of the public operations, where a card is added right after it was made:
`addCard(makeCard(palette, title))`. -/
inductive PairedOp where
  | makeAndAddCard (palette : PaletteId) (title : QString)
  | removeCard (card : CardId)
  | setSwatchSize (size : QSize)
  | setGammaEnabled (enabled : Bool)
  | setGamma (gamma : qreal)
deriving DecidableEq, Repr

/-- The calls a paired operation stands for: `makeCard`, then `addCard` with the card
`makeCard` returned. -/
def PairedOp.apply (qt : Qt) (s : PaletteCardCollection) : PairedOp → Option PaletteCardCollection
  | .makeAndAddCard palette title =>
    match s.makeCard qt palette title with
    | none => none
    | some (card, s1) => some (s1.addCard card)
  | .removeCard card => some (s.removeCard card)
  | .setSwatchSize size => some (s.setSwatchSize size)
  | .setGammaEnabled enabled => some (s.setGammaEnabled enabled)
  | .setGamma gamma => some (s.setGamma qt gamma)

/-- The state after a sequence of paired operations, made in order. -/
def runPairedOps (qt : Qt) (s : PaletteCardCollection) : List PairedOp → Option PaletteCardCollection
  | [] => some s
  | op :: ops =>
    match op.apply qt s with
    | none => none
    | some s1 => runPairedOps qt s1 ops

/-- Every held card carries the three defaults of the collection. -/
def MirrorsDefaults (s : PaletteCardCollection) : Prop :=
  ∀ card ∈ s.m_paletteCards,
    (s.heap card).swatchSize = s.m_swatchSize ∧ (s.heap card).gammaEnabled = s.m_gammaEnabled ∧
      (s.heap card).gamma = s.m_gamma

/-- Every held card has been created: its identity is below the next one to be handed out. -/
def HeldCreated (s : PaletteCardCollection) : Prop :=
  ∀ card ∈ s.m_paletteCards, card < s.nextCard

instance (s : PaletteCardCollection) : Decidable (MirrorsDefaults s) := by
  unfold MirrorsDefaults; infer_instance

instance (s : PaletteCardCollection) : Decidable (HeldCreated s) := by
  unfold HeldCreated; infer_instance

/-- The name the specification asks for: the candidate itself if no held card has that
title; otherwise the candidate without its trailing digits, followed by the least number,
from `1` on, that gives a name no held card has. -/
def IsReferenceName (qt : Qt) (held : List QString) (name r : QString) : Prop :=
  (name ∉ held ∧ r = name) ∨
  (name ∈ held ∧ ∃ k, 1 ≤ k ∧ r = name.rdropWhile (QChar.isDigit qt) ++ decimal k ∧ r ∉ held ∧
    ∀ j, 1 ≤ j → j < k → name.rdropWhile (QChar.isDigit qt) ++ decimal j ∈ held)

end PaletteCardCollection

/-! ## A sample environment and sample states -/

/-- An environment with no digits outside ASCII, a locale that prints numbers as the C locale
does, and a `qFuzzyCompare` that accepts equal bit patterns only. -/
def Qt.c : Qt where
  isDigitTable := fun _ => false
  digitValueTable := fun _ => none
  localize := fun d => d
  qFuzzyCompare := fun a b => decide (a = b)
  localize_inj := fun _ _ h => h
  localize_len := fun _ _ h => h

/-- The name `Palette`. -/
def samplePalette : QString := ['P', 'a', 'l', 'e', 't', 't', 'e']

/-- The name `Palette1`. -/
def samplePalette1 : QString := ['P', 'a', 'l', 'e', 't', 't', 'e', '1']

/-- The name `Palette2`. -/
def samplePalette2 : QString := ['P', 'a', 'l', 'e', 't', 't', 'e', '2']

/-- A heap in which every card is blank. -/
def blankHeap : CardId → PaletteCard := fun _ => ⟨0, [], ⟨0, 0⟩, false, ⟨0⟩⟩

/-- A collection that holds one card per given title, card `i` carrying the `i`-th title,
with the constructor's defaults. -/
def titled (ts : List QString) : PaletteCardCollection :=
  { heap := fun i => ⟨0, ts.getD i [], ⟨16, 16⟩, false, ⟨0⟩⟩, nextCard := ts.length,
    m_paletteCards := List.range ts.length, m_swatchSize := ⟨16, 16⟩, m_gammaEnabled := false,
    m_gamma := ⟨0⟩, trace := [] }

/-! ## Measures used in the proofs -/

/-- The number a string of decimal digits denotes. -/
def decimalValue (s : QString) : Nat := s.foldl (fun acc c => 10 * acc + (c.toNat - 48)) 0

/-- The number of markers numbered `m` without the `L` flag. -/
def argCount (m : Nat) : List ArgPiece → Nat
  | [] => 0
  | .text _ :: ps => argCount m ps
  | .escape n l _ :: ps => (if n = m ∧ l = false then 1 else 0) + argCount m ps

/-- The number of markers numbered `m` with the `L` flag. -/
def largCount (m : Nat) : List ArgPiece → Nat
  | [] => 0
  | .text _ :: ps => largCount m ps
  | .escape n l _ :: ps => (if n = m ∧ l = true then 1 else 0) + largCount m ps

/-- The number of characters that replacing the markers numbered `m` leaves as written. -/
def keptLength (m : Nat) : List ArgPiece → Nat
  | [] => 0
  | .text _ :: ps => 1 + keptLength m ps
  | .escape n _ raw :: ps => (if n = m then 0 else raw.length) + keptLength m ps

/-- The three facts the paired operations keep: every held card has been created, the titles
of the held cards are pairwise different, and every held card carries the defaults. -/
def PaletteCardCollection.PairedInvariant (s : PaletteCardCollection) : Prop :=
  s.HeldCreated ∧ s.titles.Nodup ∧ s.MirrorsDefaults

/-! ## Decimal digits -/

theorem digitChar_toNat (d : Nat) (h : d < 10) : (Nat.digitChar d).toNat = 48 + d := by
  interval_cases d <;> rfl

theorem toDigitsCore_acc (f : Nat) : ∀ (n : Nat) (ds : List Char),
    Nat.toDigitsCore 10 f n ds = Nat.toDigitsCore 10 f n [] ++ ds := by
  induction f with
  | zero => intro n ds; simp [Nat.toDigitsCore]
  | succ f ih =>
    intro n ds
    simp only [Nat.toDigitsCore]
    split
    · simp
    · rw [ih (n / 10) (_ :: ds), ih (n / 10) [_]]; simp

theorem decimalValue_append (a b : QString) :
    decimalValue (a ++ b) = b.foldl (fun acc c => 10 * acc + (c.toNat - 48)) (decimalValue a) := by
  simp [decimalValue, List.foldl_append]

theorem decimalValue_toDigitsCore (f : Nat) : ∀ n : Nat, n < f →
    decimalValue (Nat.toDigitsCore 10 f n []) = n := by
  induction f with
  | zero => intro n h; omega
  | succ f ih =>
    intro n h
    have hd : (Nat.digitChar (n % 10)).toNat - 48 = n % 10 := by
      rw [digitChar_toNat _ (Nat.mod_lt _ (by decide))]; omega
    simp only [Nat.toDigitsCore]
    split
    · rename_i h0
      simp only [decimalValue, List.foldl, hd]
      omega
    · rename_i h0
      rw [toDigitsCore_acc, decimalValue_append, ih (n / 10) (by omega)]
      simp only [List.foldl, hd]
      omega

theorem decimalValue_decimal (n : Nat) : decimalValue (decimal n) = n :=
  decimalValue_toDigitsCore (n + 1) n (Nat.lt_succ_self n)

theorem decimal_injective {a b : Nat} (h : decimal a = decimal b) : a = b := by
  rw [← decimalValue_decimal a, ← decimalValue_decimal b, h]

/-! ## Place markers -/

theorem digitValue_percent (qt : Qt) : QChar.digitValue qt '%' = none := by
  simp [QChar.digitValue]

theorem digitValue_one (qt : Qt) : QChar.digitValue qt '1' = some 1 := by
  simp [QChar.digitValue]

theorem digitValue_two (qt : Qt) : QChar.digitValue qt '2' = some 2 := by
  simp [QChar.digitValue]

theorem minEscape_append_eq_none (a b : List ArgPiece) :
    minEscape (a ++ b) = none ↔ minEscape a = none ∧ minEscape b = none := by
  induction a with
  | nil => simp [minEscape]
  | cons p ps ih =>
    cases p with
    | text c => simpa [minEscape] using ih
    | escape n l raw =>
      simp only [List.cons_append, minEscape]
      cases h1 : minEscape (ps ++ b) <;> cases h2 : minEscape ps <;> simp

/-- The scan of a string that ends in `%2` finds a place marker, whatever precedes it. -/
theorem minEscape_findArgEscapes_suffix (qt : Qt) (base : QString) : ∀ st : ArgScan,
    minEscape (findArgEscapes qt st (base ++ ['%', '2'])) ≠ none := by
  induction base with
  | nil =>
    intro st
    cases st <;>
      simp [findArgEscapes, ArgScan.step, ArgScan.plainStep, ArgScan.flush, minEscape,
        digitValue_percent, digitValue_two]
  | cons c cs ih =>
    intro st h
    rw [List.cons_append, findArgEscapes, minEscape_append_eq_none] at h
    exact ih _ h.2

theorem replaceArgEscapes_length (m : Nat) (a l : QString) (ps : List ArgPiece) :
    (replaceArgEscapes m a l ps).length =
      keptLength m ps + argCount m ps * a.length + largCount m ps * l.length := by
  induction ps with
  | nil => simp [replaceArgEscapes, keptLength, argCount, largCount]
  | cons p ps ih =>
    cases p with
    | text c => simp [replaceArgEscapes, keptLength, argCount, largCount, ih]; omega
    | escape n b raw =>
      by_cases hn : n = m <;> cases b <;>
        simp [replaceArgEscapes, keptLength, argCount, largCount, ih, hn] <;> ring

/-- The lowest marker number is the number of some marker. -/
theorem minEscape_attained (ps : List ArgPiece) (m : Nat) (h : minEscape ps = some m) :
    0 < argCount m ps + largCount m ps := by
  induction ps generalizing m with
  | nil => simp [minEscape] at h
  | cons p ps ih =>
    cases p with
    | text c => simpa [argCount, largCount] using ih m (by simpa [minEscape] using h)
    | escape n b raw =>
      simp only [minEscape] at h
      cases hps : minEscape ps with
      | none =>
        rw [hps] at h
        have hn : n = m := by simpa using h
        cases b <;> simp [argCount, largCount, hn]
      | some k =>
        rw [hps] at h
        have hm : min n k = m := by simpa using h
        by_cases hnk : n ≤ k
        · have hn : n = m := by rw [← hm]; exact (Nat.min_eq_left hnk).symm
          cases b <;> simp [argCount, largCount, hn]
        · have hk : k = m := by rw [← hm]; exact (Nat.min_eq_right (by omega)).symm
          have := ih m (hk ▸ hps)
          simp only [argCount, largCount]
          omega

/-- Two replacements of the same pieces that agree, by texts of the same lengths, are
replacements by the same texts (as far as the texts are used). -/
theorem replaceArgEscapes_cancel (m : Nat) (a1 l1 a2 l2 : QString) (ps : List ArgPiece)
    (ha : 0 < argCount m ps → a1.length = a2.length)
    (hl : 0 < largCount m ps → l1.length = l2.length)
    (h : replaceArgEscapes m a1 l1 ps = replaceArgEscapes m a2 l2 ps) :
    (0 < argCount m ps → a1 = a2) ∧ (0 < largCount m ps → l1 = l2) := by
  induction ps with
  | nil => simp [argCount, largCount]
  | cons p ps ih =>
    cases p with
    | text c =>
      simp only [replaceArgEscapes, List.cons.injEq, true_and] at h
      simpa [argCount, largCount] using ih (by simpa [argCount] using ha)
        (by simpa [largCount] using hl) h
    | escape n b raw =>
      by_cases hn : n = m
      · cases b
        · have hlen : a1.length = a2.length := ha (by simp [argCount, hn])
          simp only [replaceArgEscapes, hn, if_true] at h
          have h' := List.append_inj h hlen
          have hrest := ih (fun _ => hlen)
            (fun hp => hl (by simpa [largCount, hn] using hp)) h'.2
          exact ⟨fun _ => h'.1, fun hp => hrest.2 (by simpa [largCount, hn] using hp)⟩
        · have hlen : l1.length = l2.length := hl (by simp [largCount, hn])
          simp only [replaceArgEscapes, hn, if_true] at h
          have h' := List.append_inj h hlen
          have hrest := ih (fun hp => ha (by simpa [argCount, hn] using hp))
            (fun _ => hlen) h'.2
          exact ⟨fun hp => hrest.1 (by simpa [argCount, hn] using hp), fun _ => h'.1⟩
      · simp only [replaceArgEscapes, hn, if_false, List.append_cancel_left_eq] at h
        simpa [argCount, largCount, hn] using ih (by simpa [argCount, hn] using ha)
          (by simpa [largCount, hn] using hl) h

/-- Replacing the lowest place marker by two numbers gives the same string only if the
numbers are the same. -/
theorem replaceArgEscapes_decimal_injective (qt : Qt) (m : Nat) (ps : List ArgPiece)
    (hm : minEscape ps = some m) (a b : Nat)
    (h : replaceArgEscapes m (decimal a) (qt.localize (decimal a)) ps =
      replaceArgEscapes m (decimal b) (qt.localize (decimal b)) ps) : a = b := by
  have hpos := minEscape_attained ps m hm
  have hlen := congrArg List.length h
  rw [replaceArgEscapes_length, replaceArgEscapes_length] at hlen
  have key : (0 < argCount m ps → (decimal a).length = (decimal b).length) ∧
      (0 < largCount m ps →
        (qt.localize (decimal a)).length = (qt.localize (decimal b)).length) := by
    rcases Nat.le_total (decimal a).length (decimal b).length with hab | hab
    · have hloc := qt.localize_len _ _ hab
      have h1 := Nat.mul_le_mul_left (argCount m ps) hab
      have h2 := Nat.mul_le_mul_left (largCount m ps) hloc
      constructor
      · intro hp
        exact Nat.eq_of_mul_eq_mul_left hp (by omega)
      · intro hp
        exact Nat.eq_of_mul_eq_mul_left hp (by omega)
    · have hloc := qt.localize_len _ _ hab
      have h1 := Nat.mul_le_mul_left (argCount m ps) hab
      have h2 := Nat.mul_le_mul_left (largCount m ps) hloc
      constructor
      · intro hp
        exact Nat.eq_of_mul_eq_mul_left hp (by omega)
      · intro hp
        exact Nat.eq_of_mul_eq_mul_left hp (by omega)
  have hc := replaceArgEscapes_cancel m _ _ _ _ ps key.1 key.2 h
  by_cases hA : 0 < argCount m ps
  · exact decimal_injective (hc.1 hA)
  · exact decimal_injective (qt.localize_inj _ _ (hc.2 (by omega)))

theorem arg_template (qt : Qt) (baseName : QString) :
    QString.arg qt ['%', '1', '%', '2'] baseName = baseName ++ ['%', '2'] := by
  simp [QString.arg, findArgEscapes, ArgScan.step, ArgScan.plainStep, ArgScan.flush, minEscape,
    replaceArgEscapes, digitValue_percent, digitValue_one, digitValue_two]

/-- Different numbers give different new names, whatever the base name. -/
theorem newName_injective (qt : Qt) (baseName : QString) (a b : Nat)
    (h : PaletteCardCollection.newName qt baseName a = PaletteCardCollection.newName qt baseName b) :
    a = b := by
  unfold PaletteCardCollection.newName at h
  rw [arg_template] at h
  unfold QString.argInt at h
  cases hm : minEscape (findArgEscapes qt .plain (baseName ++ ['%', '2'])) with
  | none => exact absurd hm (minEscape_findArgEscapes_suffix qt baseName .plain)
  | some m =>
    rw [hm] at h
    exact replaceArgEscapes_decimal_injective qt m _ hm a b h

theorem findArgEscapes_plain_of_no_percent (qt : Qt) (s t : QString) (h : '%' ∉ s) :
    findArgEscapes qt .plain (s ++ t) = s.map ArgPiece.text ++ findArgEscapes qt .plain t := by
  induction s with
  | nil => simp
  | cons c cs ih =>
    have hc : c ≠ '%' := fun e => h (by simp [e])
    have hcs : '%' ∉ cs := fun e => h (by simp [e])
    simp [findArgEscapes, ArgScan.step, ArgScan.plainStep, hc, ih hcs]

theorem minEscape_map_text_append (s : QString) (ps : List ArgPiece) :
    minEscape (s.map ArgPiece.text ++ ps) = minEscape ps := by
  induction s with
  | nil => simp
  | cons c cs ih => simpa [minEscape] using ih

theorem replaceArgEscapes_map_text_append (m : Nat) (a l : QString) (s : QString)
    (ps : List ArgPiece) :
    replaceArgEscapes m a l (s.map ArgPiece.text ++ ps) = s ++ replaceArgEscapes m a l ps := by
  induction s with
  | nil => simp
  | cons c cs ih => simpa [replaceArgEscapes] using ih

/-- For a base name without `%` the new name is the base name followed by the number. -/
theorem newName_of_no_percent (qt : Qt) (baseName : QString) (k : Nat) (h : '%' ∉ baseName) :
    PaletteCardCollection.newName qt baseName k = baseName ++ decimal k := by
  unfold PaletteCardCollection.newName
  rw [arg_template]
  unfold QString.argInt
  rw [findArgEscapes_plain_of_no_percent qt baseName _ h, minEscape_map_text_append]
  simp [findArgEscapes, ArgScan.step, ArgScan.plainStep, ArgScan.flush, minEscape,
    replaceArgEscapes, digitValue_two, replaceArgEscapes_map_text_append]

/-! ## The unique name search -/

namespace PaletteCardCollection

theorem paletteNameExists_iff (s : PaletteCardCollection) (name : QString) :
    s.paletteNameExists name = true ↔ name ∈ s.titles := by
  simp only [paletteNameExists, titles, List.any_eq_true, decide_eq_true_eq, List.mem_map]
  constructor
  · rintro ⟨c, hc, h⟩; exact ⟨c, hc, h.symm⟩
  · rintro ⟨c, hc, h⟩; exact ⟨c, hc, h.symm⟩

theorem paletteNameExists_eq_false_iff (s : PaletteCardCollection) (name : QString) :
    s.paletteNameExists name = false ↔ name ∉ s.titles := by
  rw [← paletteNameExists_iff]; simp

theorem titles_length (s : PaletteCardCollection) : s.titles.length = s.count := by
  simp [titles, count]

/-- What the loop returns: the new name of the first number, from `lastNumber` on and among
those an `int` can hold, whose new name is not a title. -/
theorem uniquePaletteNameLoop_eq_some_iff (qt : Qt) (s : PaletteCardCollection)
    (baseName : QString) : ∀ (left lastNumber : Nat) (r : QString),
    uniquePaletteNameLoop qt s baseName left lastNumber = some r ↔
      ∃ k, lastNumber ≤ k ∧ k < lastNumber + left ∧ r = newName qt baseName k ∧
        newName qt baseName k ∉ s.titles ∧
        ∀ j, lastNumber ≤ j → j < k → newName qt baseName j ∈ s.titles := by
  intro left
  induction left with
  | zero =>
    intro lastNumber r
    simp only [uniquePaletteNameLoop, add_zero]
    constructor
    · intro h; cases h
    · rintro ⟨k, h1, h2, -⟩
      omega
  | succ left ih =>
    intro lastNumber r
    unfold uniquePaletteNameLoop
    by_cases hex : s.paletteNameExists (newName qt baseName lastNumber) = true
    · have hin := (paletteNameExists_iff s _).1 hex
      simp only [hex, Bool.not_true, Bool.false_eq_true, if_false]
      rw [ih]
      constructor
      · rintro ⟨k, h1, h2, h3, h4, h5⟩
        refine ⟨k, by omega, by omega, h3, h4, fun j hj1 hj2 => ?_⟩
        rcases Nat.eq_or_lt_of_le hj1 with e | e
        · exact e ▸ hin
        · exact h5 j e hj2
      · rintro ⟨k, h1, h2, h3, h4, h5⟩
        have hk : k ≠ lastNumber := fun e => h4 (e ▸ hin)
        exact ⟨k, by omega, by omega, h3, h4, fun j hj1 hj2 => h5 j (by omega) hj2⟩
    · have hex' : s.paletteNameExists (newName qt baseName lastNumber) = false := by
        simpa using hex
      have hnin := (paletteNameExists_eq_false_iff s _).1 hex'
      simp only [hex', Bool.not_false, if_true, Option.some.injEq]
      constructor
      · intro e
        exact ⟨lastNumber, le_refl _, by omega, e.symm, hnin, fun j hj1 hj2 => by omega⟩
      · rintro ⟨k, h1, h2, h3, h4, h5⟩
        rcases Nat.eq_or_lt_of_le h1 with e | e
        · rw [h3, e]
        · exact absurd (h5 lastNumber (le_refl _) e) hnin

/-- Among the numbers `1`, ..., `count() + 1` there is one whose new name is not a title:
the new names are pairwise different and there are more of them than titles. -/
theorem exists_unused_newName (qt : Qt) (s : PaletteCardCollection) (baseName : QString) :
    ∃ k, 1 ≤ k ∧ k ≤ s.count + 1 ∧ newName qt baseName k ∉ s.titles := by
  by_contra hcon
  push_neg at hcon
  have hnodup : ((List.range (s.count + 1)).map (fun j => newName qt baseName (j + 1))).Nodup := by
    refine List.Nodup.map ?_ (List.nodup_range _)
    intro a b hab
    have := newName_injective qt baseName _ _ hab
    omega
  have hsub : (List.range (s.count + 1)).map (fun j => newName qt baseName (j + 1)) ⊆ s.titles := by
    intro x hx
    rcases List.mem_map.1 hx with ⟨j, hj, rfl⟩
    exact hcon (j + 1) (by omega) (by have := List.mem_range.1 hj; omega)
  have hle := (hnodup.subperm hsub).length_le
  rw [List.length_map, List.length_range, titles_length] at hle
  omega

/-- The first number, counted from `1`, whose new name is not a title. -/
theorem exists_least_unused_newName (qt : Qt) (s : PaletteCardCollection) (baseName : QString) :
    ∃ k, 1 ≤ k ∧ k ≤ s.count + 1 ∧ newName qt baseName k ∉ s.titles ∧
      ∀ j, 1 ≤ j → j < k → newName qt baseName j ∈ s.titles := by
  classical
  have hex : ∃ k, 1 ≤ k ∧ newName qt baseName k ∉ s.titles := by
    obtain ⟨k, h1, -, h3⟩ := exists_unused_newName qt s baseName
    exact ⟨k, h1, h3⟩
  refine ⟨Nat.find hex, (Nat.find_spec hex).1, ?_, (Nat.find_spec hex).2, ?_⟩
  · obtain ⟨k, h1, h2, h3⟩ := exists_unused_newName qt s baseName
    exact le_trans (Nat.find_min' hex ⟨h1, h3⟩) h2
  · intro j hj1 hj2
    by_contra hj
    exact Nat.find_min hex hj2 ⟨hj1, hj⟩

theorem uniquePaletteName_not_held (qt : Qt) (s : PaletteCardCollection) (card : CardId)
    (name r : QString) (h : uniquePaletteName qt s card name = some r) : r ∉ s.titles := by
  unfold uniquePaletteName at h
  by_cases hex : s.paletteNameExists name = true
  · simp only [hex, Bool.not_true, Bool.false_eq_true, if_false] at h
    obtain ⟨k, -, -, h3, h4, -⟩ := (uniquePaletteNameLoop_eq_some_iff qt s _ _ _ _).1 h
    exact h3 ▸ h4
  · have hex' : s.paletteNameExists name = false := by simpa using hex
    simp only [hex', Bool.not_false, if_true, Option.some.injEq] at h
    exact h ▸ (paletteNameExists_eq_false_iff s _).1 hex'

theorem uniquePaletteNameLoop_returns (qt : Qt) (s : PaletteCardCollection) (baseName : QString)
    (hcap : s.count < INT_MAX) :
    ∃ k, 1 ≤ k ∧ k ≤ s.count + 1 ∧ newName qt baseName k ∉ s.titles ∧
      (∀ j, 1 ≤ j → j < k → newName qt baseName j ∈ s.titles) ∧
      uniquePaletteNameLoop qt s baseName INT_MAX 1 = some (newName qt baseName k) := by
  obtain ⟨k, h1, h2, h3, h4⟩ := exists_least_unused_newName qt s baseName
  exact ⟨k, h1, h2, h3, h4,
    (uniquePaletteNameLoop_eq_some_iff qt s _ _ _ _).2 ⟨k, h1, by omega, rfl, h3, h4⟩⟩

theorem uniquePaletteName_returns (qt : Qt) (s : PaletteCardCollection) (card : CardId)
    (name : QString) (hcap : s.count < INT_MAX) :
    ∃ r, uniquePaletteName qt s card name = some r := by
  unfold uniquePaletteName
  split
  · exact ⟨_, rfl⟩
  · obtain ⟨k, -, -, -, -, h⟩ := uniquePaletteNameLoop_returns qt s
      (name.take (lastDigitBase qt name)) hcap
    exact ⟨_, h⟩

end PaletteCardCollection

/-! ## Card objects and the held list -/

namespace PaletteCardCollection

theorem foldl_callCard_fields (f : PaletteCard → PaletteCard) (e : CardId → Effect)
    (l : List CardId) : ∀ s : PaletteCardCollection,
    (l.foldl (fun st card => st.callCard card f (e card)) s).m_paletteCards = s.m_paletteCards ∧
    (l.foldl (fun st card => st.callCard card f (e card)) s).nextCard = s.nextCard ∧
    (l.foldl (fun st card => st.callCard card f (e card)) s).m_swatchSize = s.m_swatchSize ∧
    (l.foldl (fun st card => st.callCard card f (e card)) s).m_gammaEnabled = s.m_gammaEnabled ∧
    (l.foldl (fun st card => st.callCard card f (e card)) s).m_gamma = s.m_gamma := by
  induction l with
  | nil => intro s; simp
  | cons a l ih => intro s; simpa [callCard] using ih (s.callCard a f (e a))

/-- A property of card objects that the setter keeps is kept by the propagation loop. -/
theorem foldl_callCard_keeps (f : PaletteCard → PaletteCard) (e : CardId → Effect)
    (R : PaletteCard → Prop) (hR : ∀ x, R x → R (f x)) (l : List CardId) :
    ∀ (s : PaletteCardCollection) (c : CardId), R (s.heap c) →
      R ((l.foldl (fun st card => st.callCard card f (e card)) s).heap c) := by
  induction l with
  | nil => intro s c h; simpa using h
  | cons a l ih =>
    intro s c h
    simp only [List.foldl]
    apply ih
    by_cases hca : c = a
    · subst hca; simpa [callCard] using hR _ h
    · simpa [callCard, Function.update, hca] using h

/-- A property the setter establishes holds, after the propagation loop, of every card the
loop went through. -/
theorem foldl_callCard_sets (f : PaletteCard → PaletteCard) (e : CardId → Effect)
    (Q : PaletteCard → Prop) (hQ : ∀ x, Q (f x)) (l : List CardId) :
    ∀ (s : PaletteCardCollection) (c : CardId), c ∈ l →
      Q ((l.foldl (fun st card => st.callCard card f (e card)) s).heap c) := by
  induction l with
  | nil => intro s c h; simp at h
  | cons a l ih =>
    intro s c h
    simp only [List.foldl]
    by_cases hca : c = a
    · apply foldl_callCard_keeps f e Q (fun x _ => hQ x)
      subst hca
      simpa [callCard] using hQ _
    · exact ih _ c (by simpa [hca] using h)

theorem foldl_callCard_titles (f : PaletteCard → PaletteCard) (e : CardId → Effect)
    (hf : ∀ x, (f x).title = x.title) (l : List CardId) (s : PaletteCardCollection) :
    (l.foldl (fun st card => st.callCard card f (e card)) s).titles = s.titles := by
  unfold titles
  rw [(foldl_callCard_fields f e l s).1]
  apply List.map_congr_left
  intro c _
  exact foldl_callCard_keeps f e (fun x => x.title = (s.heap c).title)
    (fun x hx => (hf x).trans hx) l s c rfl

theorem removeCard_m_paletteCards (s : PaletteCardCollection) (card : CardId) :
    (s.removeCard card).m_paletteCards = s.m_paletteCards.erase card := by
  unfold removeCard
  split
  · rfl
  · rename_i h; simp [List.erase_of_not_mem h]

theorem removeCard_heap (s : PaletteCardCollection) (card : CardId) :
    (s.removeCard card).heap = s.heap ∧ (s.removeCard card).nextCard = s.nextCard ∧
    (s.removeCard card).m_swatchSize = s.m_swatchSize ∧
    (s.removeCard card).m_gammaEnabled = s.m_gammaEnabled ∧
    (s.removeCard card).m_gamma = s.m_gamma := by
  unfold removeCard
  split <;> simp

/-- What a successful `makeCard` returns: the next card identity, a state that differs from
the old one in that card object, the allocation counter and the trace only, and a card
object that carries a title no held card has and the three defaults. -/
theorem makeCard_eq_some (qt : Qt) (s : PaletteCardCollection) (palette : PaletteId)
    (title : QString) (card : CardId) (s1 : PaletteCardCollection)
    (h : s.makeCard qt palette title = some (card, s1)) (hc : HeldCreated s) :
    card = s.nextCard ∧ s1.m_paletteCards = s.m_paletteCards ∧ s1.nextCard = s.nextCard + 1 ∧
    s1.m_swatchSize = s.m_swatchSize ∧ s1.m_gammaEnabled = s.m_gammaEnabled ∧
    s1.m_gamma = s.m_gamma ∧
    (∀ d, d ≠ card → s1.heap d = s.heap d) ∧
    (s1.heap card).title ∉ s.titles ∧ (s1.heap card).palette = palette ∧
    (s1.heap card).swatchSize = s.m_swatchSize ∧
    (s1.heap card).gammaEnabled = s.m_gammaEnabled ∧ (s1.heap card).gamma = s.m_gamma := by
  unfold makeCard at h
  simp only at h
  split at h
  · cases h
  · rename_i t ht
    have hnot := uniquePaletteName_not_held qt _ _ _ _ ht
    have htitles : titles { s with
        heap := Function.update s.heap s.nextCard (PaletteCard.mk palette [] ⟨0, 0⟩ false ⟨0⟩),
        nextCard := s.nextCard + 1 } = s.titles := by
      unfold titles
      apply List.map_congr_left
      intro c hcm
      have : c ≠ s.nextCard := Nat.ne_of_lt (hc c hcm)
      simp [Function.update, this]
    rw [htitles] at hnot
    simp only [Option.some.injEq, Prod.mk.injEq] at h
    obtain ⟨h1, h2⟩ := h
    subst h1
    subst h2
    refine ⟨rfl, rfl, rfl, rfl, rfl, rfl, ?_, ?_, ?_, ?_, ?_, ?_⟩
    · intro d hd
      simp [callCard, Function.update, hd]
    · simpa [callCard, PaletteCard.setTitle, PaletteCard.setSwatchSize,
        PaletteCard.setGammaEnabled, PaletteCard.setGamma] using hnot
    all_goals
      simp [callCard, PaletteCard.setTitle, PaletteCard.setSwatchSize,
        PaletteCard.setGammaEnabled, PaletteCard.setGamma]

theorem makeCard_returns (qt : Qt) (s : PaletteCardCollection) (palette : PaletteId)
    (title : QString) (hcap : s.count < INT_MAX) :
    ∃ card s1, s.makeCard qt palette title = some (card, s1) := by
  unfold makeCard
  simp only
  obtain ⟨r, hr⟩ := uniquePaletteName_returns qt
    { s with heap := Function.update s.heap s.nextCard ⟨palette, [], ⟨0, 0⟩, false, ⟨0⟩⟩,
             nextCard := s.nextCard + 1 } s.nextCard title hcap
  rw [hr]
  exact ⟨_, _, rfl⟩

end PaletteCardCollection

/-! ## Properties of `uniquePaletteName` -/

namespace PaletteCardCollection

theorem not_mem_titles_iff (s : PaletteCardCollection) (r : QString) :
    r ∉ s.titles ↔ ∀ c ∈ s.m_paletteCards, r ≠ (s.heap c).title := by
  simp only [titles, List.mem_map, not_exists, not_and]
  constructor
  · intro h c hc e; exact h c hc e.symm
  · intro h c hc e; exact h c hc e.symm

/-- C1: the name `uniquePaletteName` returns is different from the title of every card the
collection holds, whatever the held cards and the candidate name; and it does return a
name when the collection holds fewer than `INT_MAX` cards. -/
theorem uniquePaletteName_differs_from_held_titles (qt : Qt) (s : PaletteCardCollection)
    (card : CardId) (name : QString) :
    (∀ r, s.uniquePaletteName qt card name = some r →
      ∀ c ∈ s.m_paletteCards, r ≠ (s.heap c).title) ∧
    (s.count < INT_MAX → ∃ r, s.uniquePaletteName qt card name = some r ∧
      ∀ c ∈ s.m_paletteCards, r ≠ (s.heap c).title) := by
  constructor
  · intro r h
    exact (not_mem_titles_iff s r).1 (uniquePaletteName_not_held qt s card name r h)
  · intro hcap
    obtain ⟨r, hr⟩ := uniquePaletteName_returns qt s card name hcap
    exact ⟨r, hr, (not_mem_titles_iff s r).1 (uniquePaletteName_not_held qt s card name r hr)⟩

theorem uniquePaletteName_differs_from_held_titles_witness :
    (titled [['P'], ['P', '1']]).count < INT_MAX ∧
    ∃ r, (titled [['P'], ['P', '1']]).uniquePaletteName Qt.c 2 ['P'] = some r ∧
      ∀ c ∈ (titled [['P'], ['P', '1']]).m_paletteCards,
        r ≠ ((titled [['P'], ['P', '1']]).heap c).title :=
  ⟨by decide,
    (uniquePaletteName_differs_from_held_titles Qt.c (titled [['P'], ['P', '1']]) 2 ['P']).2
      (by decide)⟩

theorem take_lastDigitBase (qt : Qt) (name : QString) :
    name.take (lastDigitBase qt name) = name.rdropWhile (QChar.isDigit qt) := by
  unfold lastDigitBase List.rdropWhile
  have h := List.takeWhile_append_dropWhile (QChar.isDigit qt) name.reverse
  have h2 : name = (name.reverse.dropWhile (QChar.isDigit qt)).reverse ++
      (name.reverse.takeWhile (QChar.isDigit qt)).reverse := by
    rw [← List.reverse_append, h, List.reverse_reverse]
  have h3 : ((name.reverse.dropWhile (QChar.isDigit qt)).reverse ++
      (name.reverse.takeWhile (QChar.isDigit qt)).reverse).take
        (name.reverse.dropWhile (QChar.isDigit qt)).reverse.length =
      (name.reverse.dropWhile (QChar.isDigit qt)).reverse := List.take_left' rfl
  rw [← h2, List.length_reverse] at h3
  exact h3

/-- For a candidate name without `%`, and a collection of fewer than `INT_MAX` cards,
`uniquePaletteName` returns the name the specification asks for. -/
theorem uniquePaletteName_reference_of_no_percent (qt : Qt) (s : PaletteCardCollection)
    (card : CardId) (name : QString) (hp : '%' ∉ name) (hcap : s.count < INT_MAX) :
    ∃ r, s.uniquePaletteName qt card name = some r ∧ IsReferenceName qt s.titles name r := by
  have hbase : '%' ∉ name.rdropWhile (QChar.isDigit qt) := by
    rw [← take_lastDigitBase]
    exact fun h => hp (List.mem_of_mem_take h)
  unfold uniquePaletteName
  by_cases hex : s.paletteNameExists name = true
  · simp only [hex, Bool.not_true, Bool.false_eq_true, if_false]
    rw [take_lastDigitBase]
    obtain ⟨k, h1, -, h3, h4, h5⟩ :=
      uniquePaletteNameLoop_returns qt s (name.rdropWhile (QChar.isDigit qt)) hcap
    refine ⟨_, h5, Or.inr ⟨(paletteNameExists_iff s name).1 hex, k, h1, ?_, h3, ?_⟩⟩
    · exact newName_of_no_percent qt _ k hbase
    · intro j hj1 hj2
      rw [← newName_of_no_percent qt _ j hbase]
      exact h4 j hj1 hj2
  · have hex' : s.paletteNameExists name = false := by simpa using hex
    simp only [hex', Bool.not_false, if_true]
    exact ⟨name, rfl, Or.inl ⟨(paletteNameExists_eq_false_iff s name).1 hex', rfl⟩⟩

/-- With cards titled `Palette` and `Palette1` the candidate `Palette` yields `Palette2`,
the reference name. -/
theorem uniquePaletteName_reference_of_no_percent_witness :
    '%' ∉ samplePalette ∧ (titled [samplePalette, samplePalette1]).count < INT_MAX ∧
    (∃ r, (titled [samplePalette, samplePalette1]).uniquePaletteName Qt.c 2 samplePalette
        = some r ∧
      IsReferenceName Qt.c (titled [samplePalette, samplePalette1]).titles samplePalette r) ∧
    (titled [samplePalette, samplePalette1]).uniquePaletteName Qt.c 2 samplePalette
      = some samplePalette2 :=
  ⟨by decide, by decide,
    uniquePaletteName_reference_of_no_percent Qt.c (titled [samplePalette, samplePalette1]) 2
      samplePalette (by decide) (by decide),
    by decide⟩

/-- C2: with one held card titled `%1x` and the candidate `%1x`, `uniquePaletteName` returns
`1x%2`: the chained `arg` calls replace the place marker `%1` inside the base name by the
number and leave `%2` in place.  The name the specification asks for is `%1x1`. -/
theorem uniquePaletteName_place_marker_in_name :
    (titled [['%', '1', 'x']]).uniquePaletteName Qt.c 1 ['%', '1', 'x']
      = some ['1', 'x', '%', '2'] ∧
    ¬ IsReferenceName Qt.c (titled [['%', '1', 'x']]).titles ['%', '1', 'x']
      ['1', 'x', '%', '2'] ∧
    IsReferenceName Qt.c (titled [['%', '1', 'x']]).titles ['%', '1', 'x']
      ['%', '1', 'x', '1'] := by
  have ht : (titled [['%', '1', 'x']]).titles = [['%', '1', 'x']] := by decide
  have hb : List.rdropWhile (QChar.isDigit Qt.c) ['%', '1', 'x'] = ['%', '1', 'x'] := by decide
  refine ⟨by decide, ?_, ?_⟩
  · rw [ht]
    rintro (⟨h, -⟩ | ⟨-, k, -, h, -⟩)
    · simp at h
    · rw [hb] at h
      simp at h
  · rw [ht]
    refine Or.inr ⟨by simp, 1, le_refl _, ?_, by simp, ?_⟩
    · rw [hb]; decide
    · intro j h1 h2; omega

/-- C3: in a collection of fewer than `INT_MAX` cards the search of `uniquePaletteName`
returns: for every base name some number `k` with `1 ≤ k ≤ count() + 1` gives a new name
that is not a title, the numbers before it give titles, and the loop returns the new name
of `k` before `lastNumber` can overflow; so `uniquePaletteName` has a result for every
candidate name. -/
theorem uniquePaletteName_terminates (qt : Qt) (s : PaletteCardCollection) (card : CardId)
    (name : QString) (hcap : s.count < INT_MAX) :
    (∃ r, s.uniquePaletteName qt card name = some r) ∧
    ∀ baseName : QString, ∃ k, 1 ≤ k ∧ k ≤ s.count + 1 ∧
      newName qt baseName k ∉ s.titles ∧
      (∀ j, 1 ≤ j → j < k → newName qt baseName j ∈ s.titles) ∧
      s.uniquePaletteNameLoop qt baseName INT_MAX 1 = some (newName qt baseName k) :=
  ⟨uniquePaletteName_returns qt s card name hcap,
    fun baseName => uniquePaletteNameLoop_returns qt s baseName hcap⟩

theorem uniquePaletteName_terminates_witness :
    (titled [['P'], ['P', '1']]).count < INT_MAX ∧
    ((∃ r, (titled [['P'], ['P', '1']]).uniquePaletteName Qt.c 2 ['P'] = some r) ∧
    ∀ baseName : QString, ∃ k, 1 ≤ k ∧ k ≤ (titled [['P'], ['P', '1']]).count + 1 ∧
      newName Qt.c baseName k ∉ (titled [['P'], ['P', '1']]).titles ∧
      (∀ j, 1 ≤ j → j < k → newName Qt.c baseName j ∈ (titled [['P'], ['P', '1']]).titles) ∧
      (titled [['P'], ['P', '1']]).uniquePaletteNameLoop Qt.c baseName INT_MAX 1
        = some (newName Qt.c baseName k)) :=
  ⟨by decide, uniquePaletteName_terminates Qt.c (titled [['P'], ['P', '1']]) 2 ['P'] (by decide)⟩

end PaletteCardCollection

/-! ## Properties of the operations -/

namespace PaletteCardCollection

theorem count_runCardOps (ops : List CardOp) : ∀ s : PaletteCardCollection,
    (runCardOps s ops).count + successfulRemoves s ops = s.count + addCalls ops := by
  induction ops with
  | nil => intro s; simp [runCardOps, successfulRemoves, addCalls]
  | cons op ops ih =>
    intro s
    cases op with
    | addCard card =>
      have h := ih (s.addCard card)
      simp only [runCardOps, CardOp.apply, successfulRemoves, addCalls] at h ⊢
      simp only [addCard, count, List.length_append, List.length_singleton] at h ⊢
      omega
    | removeCard card =>
      have h := ih (s.removeCard card)
      simp only [runCardOps, CardOp.apply, successfulRemoves, addCalls] at h ⊢
      have hlen : (s.removeCard card).count + (if s.containsCard card then 1 else 0) = s.count := by
        simp only [count, removeCard_m_paletteCards, containsCard]
        by_cases hm : card ∈ s.m_paletteCards
        · have hpos : 0 < s.m_paletteCards.length := List.length_pos_of_mem hm
          simp [List.length_erase_of_mem hm, hm]
          omega
        · simp [List.erase_of_not_mem hm, hm]
      omega

/-- C4: after any sequence of `addCard` and `removeCard` calls on the collection the
constructor leaves, `count()` is the number of `addCard` calls minus the number of
`removeCard` calls that found their card in the collection. -/
theorem count_eq_adds_minus_successful_removes (heap : CardId → PaletteCard)
    (gammaEnabled : Bool) (gamma : qreal) (ops : List CardOp) :
    ((runCardOps (init heap gammaEnabled gamma) ops).count : Int) =
      (addCalls ops : Int) - (successfulRemoves (init heap gammaEnabled gamma) ops : Int) := by
  have h := count_runCardOps ops (init heap gammaEnabled gamma)
  have h0 : (init heap gammaEnabled gamma).count = 0 := rfl
  omega

theorem pairedInvariant_init (heap : CardId → PaletteCard) (gammaEnabled : Bool) (gamma : qreal) :
    PairedInvariant (init heap gammaEnabled gamma) := by
  refine ⟨?_, ?_, ?_⟩
  · intro c hc; simp [init] at hc
  · simp [titles, init]
  · intro c hc; simp [init] at hc

theorem pairedInvariant_makeAndAddCard (qt : Qt) (s : PaletteCardCollection)
    (palette : PaletteId) (title : QString) (card : CardId) (s1 : PaletteCardCollection)
    (h : s.makeCard qt palette title = some (card, s1)) (hinv : PairedInvariant s) :
    PairedInvariant (s1.addCard card) := by
  obtain ⟨hc, hn, hm⟩ := hinv
  obtain ⟨e1, e2, e3, e4, e5, e6, hother, htitle, -, hs, hg, hgam⟩ :=
    makeCard_eq_some qt s palette title card s1 h hc
  have hne : ∀ c ∈ s.m_paletteCards, c ≠ card := fun c hcm => e1 ▸ Nat.ne_of_lt (hc c hcm)
  have htitles : (s1.addCard card).titles = s.titles ++ [(s1.heap card).title] := by
    simp only [titles, addCard, e2, List.map_append, List.map_cons, List.map_nil]
    congr 1
    apply List.map_congr_left
    intro c hcm
    rw [hother c (hne c hcm)]
  refine ⟨?_, ?_, ?_⟩
  · intro c hcm
    simp only [addCard, e2, List.mem_append, List.mem_singleton] at hcm
    show c < s1.nextCard
    rw [e3]
    rcases hcm with hcm | hcm
    · exact Nat.lt_succ_of_lt (hc c hcm)
    · rw [hcm, e1]; exact Nat.lt_succ_self _
  · rw [htitles]
    exact List.Nodup.append hn (List.nodup_singleton _)
      (by simpa [List.disjoint_singleton] using htitle)
  · intro c hcm
    simp only [addCard, e2, List.mem_append, List.mem_singleton] at hcm
    show (s1.heap c).swatchSize = s1.m_swatchSize ∧ (s1.heap c).gammaEnabled = s1.m_gammaEnabled ∧
      (s1.heap c).gamma = s1.m_gamma
    rw [e4, e5, e6]
    rcases hcm with hcm | hcm
    · rw [hother c (hne c hcm)]; exact hm c hcm
    · rw [hcm]; exact ⟨hs, hg, hgam⟩

theorem pairedInvariant_removeCard (s : PaletteCardCollection) (card : CardId)
    (hinv : PairedInvariant s) : PairedInvariant (s.removeCard card) := by
  obtain ⟨hc, hn, hm⟩ := hinv
  obtain ⟨h1, h2, h3, h4, h5⟩ := removeCard_heap s card
  have hmem : ∀ c ∈ (s.removeCard card).m_paletteCards, c ∈ s.m_paletteCards := by
    intro c hcm
    rw [removeCard_m_paletteCards] at hcm
    exact List.mem_of_mem_erase hcm
  refine ⟨?_, ?_, ?_⟩
  · intro c hcm
    show c < (s.removeCard card).nextCard
    rw [h2]; exact hc c (hmem c hcm)
  · unfold titles
    rw [removeCard_m_paletteCards, h1]
    exact hn.sublist ((List.erase_sublist card s.m_paletteCards).map _)
  · intro c hcm
    rw [h1, h3, h4, h5]
    exact hm c (hmem c hcm)

/-- A propagation loop keeps the three facts when the setter it calls keeps the title, keeps
what the changed default leaves alone (`R`) and stores the changed default (`Q`). -/
theorem pairedInvariant_propagate (s s0 : PaletteCardCollection) (f : PaletteCard → PaletteCard)
    (e : CardId → Effect) (R Q : PaletteCard → Prop)
    (hheap : s0.heap = s.heap) (hcards : s0.m_paletteCards = s.m_paletteCards)
    (hnext : s0.nextCard = s.nextCard)
    (hf : ∀ x, (f x).title = x.title) (hR : ∀ x, R x → R (f x)) (hQ : ∀ x, Q (f x))
    (hstart : ∀ x, (x.swatchSize = s.m_swatchSize ∧ x.gammaEnabled = s.m_gammaEnabled ∧
      x.gamma = s.m_gamma) → R x)
    (hend : ∀ x, R x → Q x → (x.swatchSize = s0.m_swatchSize ∧
      x.gammaEnabled = s0.m_gammaEnabled ∧ x.gamma = s0.m_gamma))
    (hinv : PairedInvariant s) :
    PairedInvariant (s0.m_paletteCards.foldl (fun st card => st.callCard card f (e card)) s0) := by
  obtain ⟨hc, hn, hm⟩ := hinv
  obtain ⟨h1, h2, h3, h4, h5⟩ := foldl_callCard_fields f e s0.m_paletteCards s0
  have ht0 : s0.titles = s.titles := by simp [titles, hheap, hcards]
  refine ⟨?_, ?_, ?_⟩
  · intro c hcm
    rw [h1, hcards] at hcm
    show c < _
    rw [h2, hnext]; exact hc c hcm
  · rw [foldl_callCard_titles f e hf, ht0]; exact hn
  · intro c hcm
    rw [h1] at hcm
    rw [h3, h4, h5]
    apply hend
    · apply foldl_callCard_keeps f e R hR
      rw [hheap]
      exact hstart _ (hm c (hcards ▸ hcm))
    · exact foldl_callCard_sets f e Q hQ s0.m_paletteCards s0 c hcm

theorem pairedInvariant_setSwatchSize (s : PaletteCardCollection) (size : QSize)
    (hinv : PairedInvariant s) : PairedInvariant (s.setSwatchSize size) := by
  unfold setSwatchSize
  split
  · exact hinv
  · exact pairedInvariant_propagate s { s with m_swatchSize := size }
      (fun c => c.setSwatchSize size) (fun card => .cardSetSwatchSize card size)
      (fun x => x.gammaEnabled = s.m_gammaEnabled ∧ x.gamma = s.m_gamma)
      (fun x => x.swatchSize = size) rfl rfl rfl (fun _ => rfl) (fun _ h => h) (fun _ => rfl)
      (fun _ h => h.2) (fun _ h1 h2 => ⟨h2, h1⟩) hinv

theorem pairedInvariant_setGammaEnabled (s : PaletteCardCollection) (enabled : Bool)
    (hinv : PairedInvariant s) : PairedInvariant (s.setGammaEnabled enabled) := by
  unfold setGammaEnabled
  split
  · exact hinv
  · exact pairedInvariant_propagate s { s with m_gammaEnabled := enabled }
      (fun c => c.setGammaEnabled enabled) (fun card => .cardSetGammaEnabled card enabled)
      (fun x => x.swatchSize = s.m_swatchSize ∧ x.gamma = s.m_gamma)
      (fun x => x.gammaEnabled = enabled) rfl rfl rfl (fun _ => rfl) (fun _ h => h)
      (fun _ => rfl) (fun _ h => ⟨h.1, h.2.2⟩) (fun _ h1 h2 => ⟨h1.1, h2, h1.2⟩) hinv

theorem pairedInvariant_setGamma (qt : Qt) (s : PaletteCardCollection) (gamma : qreal)
    (hinv : PairedInvariant s) : PairedInvariant (s.setGamma qt gamma) := by
  unfold setGamma
  split
  · exact hinv
  · exact pairedInvariant_propagate s { s with m_gamma := gamma }
      (fun c => c.setGamma gamma) (fun card => .cardSetGamma card gamma)
      (fun x => x.swatchSize = s.m_swatchSize ∧ x.gammaEnabled = s.m_gammaEnabled)
      (fun x => x.gamma = gamma) rfl rfl rfl (fun _ => rfl) (fun _ h => h)
      (fun _ => rfl) (fun _ h => ⟨h.1, h.2.1⟩) (fun _ h1 h2 => ⟨h1.1, h1.2, h2⟩) hinv

theorem pairedInvariant_apply (qt : Qt) (s s1 : PaletteCardCollection) (op : PairedOp)
    (h : op.apply qt s = some s1) (hinv : PairedInvariant s) : PairedInvariant s1 := by
  cases op with
  | makeAndAddCard palette title =>
    simp only [PairedOp.apply] at h
    split at h
    · cases h
    · rename_i card s0 hmk
      cases h
      exact pairedInvariant_makeAndAddCard qt s palette title card s0 hmk hinv
  | removeCard card =>
    cases h; exact pairedInvariant_removeCard s card hinv
  | setSwatchSize size =>
    cases h; exact pairedInvariant_setSwatchSize s size hinv
  | setGammaEnabled enabled =>
    cases h; exact pairedInvariant_setGammaEnabled s enabled hinv
  | setGamma gamma =>
    cases h; exact pairedInvariant_setGamma qt s gamma hinv

theorem pairedInvariant_runPairedOps (qt : Qt) (ops : List PairedOp) :
    ∀ s s1 : PaletteCardCollection, runPairedOps qt s ops = some s1 → PairedInvariant s →
      PairedInvariant s1 := by
  induction ops with
  | nil => intro s s1 h hinv; cases h; exact hinv
  | cons op ops ih =>
    intro s s1 h hinv
    simp only [runPairedOps] at h
    split at h
    · cases h
    · rename_i s0 hop
      exact ih s0 s1 h (pairedInvariant_apply qt s s0 op hop hinv)

theorem count_apply_le (qt : Qt) (s s1 : PaletteCardCollection) (op : PairedOp)
    (h : op.apply qt s = some s1) : s1.count ≤ s.count + 1 := by
  cases op with
  | makeAndAddCard palette title =>
    simp only [PairedOp.apply] at h
    split at h
    · cases h
    · rename_i card s0 hmk
      cases h
      unfold makeCard at hmk
      simp only at hmk
      split at hmk
      · cases hmk
      · simp only [Option.some.injEq, Prod.mk.injEq] at hmk
        obtain ⟨-, h2⟩ := hmk
        subst h2
        simp [count, addCard, callCard]
  | removeCard card =>
    cases h
    simp only [count, removeCard_m_paletteCards]
    exact le_trans (List.erase_sublist _ _).length_le (Nat.le_succ _)
  | setSwatchSize size =>
    cases h
    unfold setSwatchSize count
    split
    · exact Nat.le_succ _
    · rw [(foldl_callCard_fields _ _ _ _).1]; exact Nat.le_succ _
  | setGammaEnabled enabled =>
    cases h
    unfold setGammaEnabled count
    split
    · exact Nat.le_succ _
    · rw [(foldl_callCard_fields _ _ _ _).1]; exact Nat.le_succ _
  | setGamma gamma =>
    cases h
    unfold setGamma count
    split
    · exact Nat.le_succ _
    · rw [(foldl_callCard_fields _ _ _ _).1]; exact Nat.le_succ _

theorem apply_returns (qt : Qt) (s : PaletteCardCollection) (op : PairedOp)
    (hcap : s.count < INT_MAX) : ∃ s1, op.apply qt s = some s1 := by
  cases op with
  | makeAndAddCard palette title =>
    obtain ⟨card, s0, h⟩ := makeCard_returns qt s palette title hcap
    exact ⟨s0.addCard card, by simp only [PairedOp.apply, h]⟩
  | removeCard card => exact ⟨_, rfl⟩
  | setSwatchSize size => exact ⟨_, rfl⟩
  | setGammaEnabled enabled => exact ⟨_, rfl⟩
  | setGamma gamma => exact ⟨_, rfl⟩

theorem runPairedOps_returns (qt : Qt) (ops : List PairedOp) : ∀ s : PaletteCardCollection,
    s.count + ops.length ≤ INT_MAX → ∃ s1, runPairedOps qt s ops = some s1 := by
  induction ops with
  | nil => intro s _; exact ⟨s, rfl⟩
  | cons op ops ih =>
    intro s hcap
    simp only [List.length_cons] at hcap
    obtain ⟨s0, h0⟩ := apply_returns qt s op (by omega)
    have hle := count_apply_le qt s s0 op h0
    obtain ⟨s1, h1⟩ := ih s0 (by omega)
    exact ⟨s1, by simp only [runPairedOps, h0, h1]⟩

/-- C5, the claim as stated fails: two cards made with the same requested title before either
is added both get that title, and adding both leaves two held cards titled alike. -/
theorem titles_repeat_after_makeCard_twice :
    Option.map titles (runOps Qt.c (init blankHeap false ⟨0⟩)
      [.makeCard 0 ['A'], .makeCard 0 ['A'], .addCard 0, .addCard 1]) = some [['A'], ['A']] ∧
    ¬ ([['A'], ['A']] : List QString).Nodup := by
  constructor
  · decide
  · decide

/-- C5, amended: in every state reached from the collection the constructor leaves by
`removeCard`, the three setters and `makeCard` followed at once by `addCard` of the card it
returned, no two positions of the held card sequence carry the same title; and such a
sequence of at most `INT_MAX` operations does reach a state. -/
theorem titles_nodup_of_paired_ops (qt : Qt) (heap : CardId → PaletteCard)
    (gammaEnabled : Bool) (gamma : qreal) (ops : List PairedOp) :
    (∀ s, runPairedOps qt (init heap gammaEnabled gamma) ops = some s → s.titles.Nodup) ∧
    (ops.length ≤ INT_MAX → ∃ s, runPairedOps qt (init heap gammaEnabled gamma) ops = some s) := by
  constructor
  · intro s h
    exact (pairedInvariant_runPairedOps qt ops _ s h
      (pairedInvariant_init heap gammaEnabled gamma)).2.1
  · intro hlen
    exact runPairedOps_returns qt ops _ (by simpa [init, count] using hlen)

theorem titles_nodup_of_paired_ops_witness :
    ([PairedOp.makeAndAddCard 0 ['A'], .makeAndAddCard 0 ['A'], .removeCard 0,
        .makeAndAddCard 1 ['A']]).length ≤ INT_MAX ∧
    ∃ s, runPairedOps Qt.c (init blankHeap false ⟨0⟩)
      [.makeAndAddCard 0 ['A'], .makeAndAddCard 0 ['A'], .removeCard 0,
        .makeAndAddCard 1 ['A']] = some s ∧ s.titles.Nodup := by
  refine ⟨by decide, ?_⟩
  obtain ⟨s, hs⟩ := (titles_nodup_of_paired_ops Qt.c blankHeap false ⟨0⟩
    [.makeAndAddCard 0 ['A'], .makeAndAddCard 0 ['A'], .removeCard 0,
      .makeAndAddCard 1 ['A']]).2 (by decide)
  exact ⟨s, hs, (titles_nodup_of_paired_ops Qt.c blankHeap false ⟨0⟩ _).1 s hs⟩

/-- C6, the claim as stated fails: a card made while the swatch size is 16 x 16 and added
after `setSwatchSize(32 x 32)` is held with swatch size 16 x 16. -/
theorem defaults_not_mirrored_after_late_addCard :
    Option.map (fun s => (s.m_paletteCards.map (fun c => (s.heap c).swatchSize), s.m_swatchSize))
      (runOps Qt.c (init blankHeap false ⟨0⟩)
        [.makeCard 0 ['A'], .setSwatchSize ⟨32, 32⟩, .addCard 0])
      = some ([⟨16, 16⟩], ⟨32, 32⟩) ∧
    Option.map (fun s => decide (MirrorsDefaults s))
      (runOps Qt.c (init blankHeap false ⟨0⟩)
        [.makeCard 0 ['A'], .setSwatchSize ⟨32, 32⟩, .addCard 0]) = some false := by
  constructor
  · decide
  · decide

/-- C6, amended: in every state reached from the collection the constructor leaves by
`removeCard`, the three setters and `makeCard` followed at once by `addCard` of the card it
returned, every held card's swatch size, gamma-enabled flag and gamma value equal
`m_swatchSize`, `m_gammaEnabled` and `m_gamma`; and such a sequence of at most `INT_MAX`
operations does reach a state. -/
theorem defaults_mirrored_of_paired_ops (qt : Qt) (heap : CardId → PaletteCard)
    (gammaEnabled : Bool) (gamma : qreal) (ops : List PairedOp) :
    (∀ s, runPairedOps qt (init heap gammaEnabled gamma) ops = some s →
      ∀ card ∈ s.m_paletteCards, (s.heap card).swatchSize = s.m_swatchSize ∧
        (s.heap card).gammaEnabled = s.m_gammaEnabled ∧ (s.heap card).gamma = s.m_gamma) ∧
    (ops.length ≤ INT_MAX → ∃ s, runPairedOps qt (init heap gammaEnabled gamma) ops = some s) := by
  constructor
  · intro s h
    exact (pairedInvariant_runPairedOps qt ops _ s h
      (pairedInvariant_init heap gammaEnabled gamma)).2.2
  · intro hlen
    exact runPairedOps_returns qt ops _ (by simpa [init, count] using hlen)

theorem defaults_mirrored_of_paired_ops_witness :
    ([PairedOp.makeAndAddCard 0 ['A'], .setSwatchSize ⟨32, 32⟩, .makeAndAddCard 0 ['B'],
        .setGamma ⟨5⟩, .setGammaEnabled true]).length ≤ INT_MAX ∧
    ∃ s, runPairedOps Qt.c (init blankHeap false ⟨0⟩)
      [.makeAndAddCard 0 ['A'], .setSwatchSize ⟨32, 32⟩, .makeAndAddCard 0 ['B'],
        .setGamma ⟨5⟩, .setGammaEnabled true] = some s ∧
      ∀ card ∈ s.m_paletteCards, (s.heap card).swatchSize = s.m_swatchSize ∧
        (s.heap card).gammaEnabled = s.m_gammaEnabled ∧ (s.heap card).gamma = s.m_gamma := by
  refine ⟨by decide, ?_⟩
  obtain ⟨s, hs⟩ := (defaults_mirrored_of_paired_ops Qt.c blankHeap false ⟨0⟩
    [.makeAndAddCard 0 ['A'], .setSwatchSize ⟨32, 32⟩, .makeAndAddCard 0 ['B'],
      .setGamma ⟨5⟩, .setGammaEnabled true]).2 (by decide)
  exact ⟨s, hs, (defaults_mirrored_of_paired_ops Qt.c blankHeap false ⟨0⟩ _).1 s hs⟩

theorem containsCard_eq_decide (s : PaletteCardCollection) (card : CardId) :
    s.containsCard card = decide (card ∈ s.m_paletteCards) := by
  simp [containsCard]

theorem containsCard_runCardOps (card : CardId) (ops : List CardOp) :
    ∀ (s : PaletteCardCollection) (flag : Bool), s.m_paletteCards.Nodup →
      s.containsCard card = flag → addsOnlyAbsent s ops = true →
      (runCardOps s ops).containsCard card = trackCard card flag ops := by
  induction ops with
  | nil => intro s flag _ h _; simpa [runCardOps, trackCard] using h
  | cons op ops ih =>
    intro s flag hn hflag hadd
    cases op with
    | addCard c =>
      simp only [addsOnlyAbsent, Bool.and_eq_true, Bool.not_eq_true', containsCard_eq_decide,
        decide_eq_false_iff_not] at hadd
      simp only [runCardOps, CardOp.apply, trackCard]
      apply ih
      · simp only [addCard]
        exact List.Nodup.append hn (List.nodup_singleton c)
          (by simpa [List.disjoint_singleton] using hadd.1)
      · rw [containsCard_eq_decide] at hflag ⊢
        simp only [addCard, List.mem_append, List.mem_singleton]
        by_cases hc : c = card
        · simp [hc]
        · have hc' : ¬ card = c := fun e => hc e.symm
          simp only [hc, hc', or_false, if_false]
          exact hflag
      · exact hadd.2
    | removeCard c =>
      simp only [addsOnlyAbsent] at hadd
      simp only [runCardOps, CardOp.apply, trackCard]
      apply ih
      · rw [removeCard_m_paletteCards]; exact hn.erase c
      · rw [containsCard_eq_decide] at hflag ⊢
        simp only [removeCard_m_paletteCards]
        by_cases hc : c = card
        · subst hc
          simp [hn.mem_erase_iff]
        · have hc' : ¬ card = c := fun e => hc e.symm
          simp only [hn.mem_erase_iff, hc, ne_eq, hc', not_false_eq_true, true_and, if_false]
          exact hflag
      · exact hadd

/-- C7, the claim as stated fails: after `addCard(c)`, `addCard(c)`, `removeCard(c)` the
collection still contains `c`, although `removeCard(c)` was called after `c` was last
added. -/
theorem containsCard_after_double_add_and_remove :
    (runCardOps (init blankHeap false ⟨0⟩)
      [.addCard 0, .addCard 0, .removeCard 0]).containsCard 0 = true ∧
    addedAndNotRemovedSince 0 [.addCard 0, .addCard 0, .removeCard 0] = false := by
  constructor
  · decide
  · decide

/-- C7, amended: for every sequence of `addCard` and `removeCard` calls on the collection the
constructor leaves in which no card is added while the collection holds it, and every card
`c` (an identity), `containsCard(c)` is true exactly if `c` was added by some `addCard(c)`
and no `removeCard(c)` has been called since `c` was last added; in particular it is false
directly after `removeCard(c)`. -/
theorem containsCard_iff_added_and_not_removed_since (heap : CardId → PaletteCard)
    (gammaEnabled : Bool) (gamma : qreal) (ops : List CardOp) (card : CardId)
    (h : addsOnlyAbsent (init heap gammaEnabled gamma) ops = true) :
    (runCardOps (init heap gammaEnabled gamma) ops).containsCard card
      = addedAndNotRemovedSince card ops ∧
    ((runCardOps (init heap gammaEnabled gamma) ops).removeCard card).containsCard card
      = false := by
  have hinit : (init heap gammaEnabled gamma).m_paletteCards.Nodup := by simp [init]
  have hmain : ∀ ops', addsOnlyAbsent (init heap gammaEnabled gamma) ops' = true →
      (runCardOps (init heap gammaEnabled gamma) ops').containsCard card
        = trackCard card false ops' := fun ops' h' =>
    containsCard_runCardOps card ops' _ false hinit (by simp [init, containsCard]) h'
  refine ⟨hmain ops h, ?_⟩
  have hnod : ∀ (l : List CardOp) (s : PaletteCardCollection), s.m_paletteCards.Nodup →
      addsOnlyAbsent s l = true → (runCardOps s l).m_paletteCards.Nodup := by
    intro l
    induction l with
    | nil => intro s hs _; exact hs
    | cons a l ih =>
      intro s hs ha
      cases a with
      | addCard c =>
        simp only [addsOnlyAbsent, Bool.and_eq_true, Bool.not_eq_true', containsCard_eq_decide,
          decide_eq_false_iff_not] at ha
        exact ih _ (by
          simp only [CardOp.apply, addCard]
          exact List.Nodup.append hs (List.nodup_singleton c)
            (by simpa [List.disjoint_singleton] using ha.1)) ha.2
      | removeCard c =>
        simp only [addsOnlyAbsent] at ha
        exact ih _ (by simp only [CardOp.apply, removeCard_m_paletteCards]; exact hs.erase c) ha
  have hn := hnod ops _ hinit h
  rw [containsCard_eq_decide, removeCard_m_paletteCards]
  simp [hn.mem_erase_iff]

theorem containsCard_iff_added_and_not_removed_since_witness :
    addsOnlyAbsent (init blankHeap false ⟨0⟩) [.addCard 0, .addCard 1, .removeCard 0] = true ∧
    ((runCardOps (init blankHeap false ⟨0⟩)
        [.addCard 0, .addCard 1, .removeCard 0]).containsCard 1
      = addedAndNotRemovedSince 1 [.addCard 0, .addCard 1, .removeCard 0] ∧
    ((runCardOps (init blankHeap false ⟨0⟩)
        [.addCard 0, .addCard 1, .removeCard 0]).removeCard 1).containsCard 1 = false) :=
  ⟨by decide, containsCard_iff_added_and_not_removed_since blankHeap false ⟨0⟩
    [.addCard 0, .addCard 1, .removeCard 0] 1 (by decide)⟩

/-- C8: a setter called with the stored value (for `setGamma`: with a value `qFuzzyCompare`
judges equal to the stored one) returns at once: the whole state is unchanged, that is the
stored defaults, the card sequence, every card object and the trace, so no setter is
called on a card and no signal is emitted. -/
theorem setters_with_current_value_do_nothing (qt : Qt) (s : PaletteCardCollection)
    (size : QSize) (enabled : Bool) (gamma : qreal)
    (hsize : size = s.m_swatchSize) (henabled : enabled = s.m_gammaEnabled)
    (hgamma : qt.qFuzzyCompare gamma s.m_gamma = true) :
    (s.setSwatchSize size = s ∧ (s.setSwatchSize size).trace = s.trace) ∧
    (s.setGammaEnabled enabled = s ∧ (s.setGammaEnabled enabled).trace = s.trace) ∧
    (s.setGamma qt gamma = s ∧ (s.setGamma qt gamma).trace = s.trace) := by
  have h1 : s.setSwatchSize size = s := by simp [setSwatchSize, hsize]
  have h2 : s.setGammaEnabled enabled = s := by simp [setGammaEnabled, henabled]
  have h3 : s.setGamma qt gamma = s := by simp [setGamma, hgamma]
  exact ⟨⟨h1, by rw [h1]⟩, ⟨h2, by rw [h2]⟩, ⟨h3, by rw [h3]⟩⟩

theorem setters_with_current_value_do_nothing_witness :
    (⟨16, 16⟩ : QSize) = (titled [['A'], ['B']]).m_swatchSize ∧
    false = (titled [['A'], ['B']]).m_gammaEnabled ∧
    Qt.c.qFuzzyCompare ⟨0⟩ (titled [['A'], ['B']]).m_gamma = true ∧
    (((titled [['A'], ['B']]).setSwatchSize ⟨16, 16⟩ = titled [['A'], ['B']] ∧
      ((titled [['A'], ['B']]).setSwatchSize ⟨16, 16⟩).trace = (titled [['A'], ['B']]).trace) ∧
    ((titled [['A'], ['B']]).setGammaEnabled false = titled [['A'], ['B']] ∧
      ((titled [['A'], ['B']]).setGammaEnabled false).trace = (titled [['A'], ['B']]).trace) ∧
    ((titled [['A'], ['B']]).setGamma Qt.c ⟨0⟩ = titled [['A'], ['B']] ∧
      ((titled [['A'], ['B']]).setGamma Qt.c ⟨0⟩).trace = (titled [['A'], ['B']]).trace)) :=
  ⟨by decide, by decide, by decide,
    setters_with_current_value_do_nothing Qt.c (titled [['A'], ['B']]) ⟨16, 16⟩ false ⟨0⟩
      (by decide) (by decide) (by decide)⟩

/-- C9: `removeCard(c)` for a card that is not held leaves the card sequence, `count()`, the
stored defaults and the card objects unchanged and adds exactly the signal
`paletteCountChanged` to the trace; for a held card it removes the first occurrence of `c`,
keeps the other cards in their order, takes the widget out of the layout and emits
`paletteCountChanged`.  In both cases exactly one `paletteCountChanged` is emitted. -/
theorem removeCard_effect (s : PaletteCardCollection) (card : CardId) :
    (card ∉ s.m_paletteCards →
      (s.removeCard card).m_paletteCards = s.m_paletteCards ∧
      (s.removeCard card).count = s.count ∧
      (s.removeCard card).m_swatchSize = s.m_swatchSize ∧
      (s.removeCard card).m_gammaEnabled = s.m_gammaEnabled ∧
      (s.removeCard card).m_gamma = s.m_gamma ∧
      (s.removeCard card).heap = s.heap ∧
      (s.removeCard card).trace = s.trace ++ [.paletteCountChanged]) ∧
    (card ∈ s.m_paletteCards →
      ∃ before after, s.m_paletteCards = before ++ card :: after ∧ card ∉ before ∧
        (s.removeCard card).m_paletteCards = before ++ after ∧
        (s.removeCard card).count + 1 = s.count ∧
        (s.removeCard card).trace =
          s.trace ++ [.layoutRemoveWidget card, .setParentNull card, .paletteCountChanged]) ∧
    (s.removeCard card).trace.count .paletteCountChanged
      = s.trace.count .paletteCountChanged + 1 := by
  refine ⟨?_, ?_, ?_⟩
  · intro h
    simp [removeCard, h, count]
  · intro h
    obtain ⟨before, after, h1, h2, h3⟩ := List.exists_erase_eq h
    refine ⟨before, after, h2, h1, ?_, ?_, ?_⟩
    · rw [removeCard_m_paletteCards, h3]
    · simp only [count, removeCard_m_paletteCards]
      rw [h3, h2]
      simp
      omega
    · simp [removeCard, h]
  · by_cases h : card ∈ s.m_paletteCards
    · simp [removeCard, h, List.count_append]
    · simp [removeCard, h, List.count_append]

theorem removeCard_effect_witness :
    (5 ∉ (titled [['A'], ['B']]).m_paletteCards ∧ 0 ∈ (titled [['A'], ['B']]).m_paletteCards) ∧
    ((titled [['A'], ['B']]).removeCard 5).m_paletteCards = [0, 1] ∧
    ((titled [['A'], ['B']]).removeCard 5).trace = [.paletteCountChanged] ∧
    ((titled [['A'], ['B']]).removeCard 0).m_paletteCards = [1] ∧
    ((titled [['A'], ['B']]).removeCard 0).trace.count .paletteCountChanged = 1 := by
  have h := removeCard_effect (titled [['A'], ['B']]) 5
  have h0 := removeCard_effect (titled [['A'], ['B']]) 0
  have h5 := h.1 (by decide)
  exact ⟨⟨by decide, by decide⟩, h5.1, h5.2.2.2.2.2.2, by decide, h0.2.2⟩

/-- C10: in a state whose held cards have pairwise different titles (and have all been
created, so that the new card object is none of them), `makeCard(palette, title)` leaves the
card sequence and `count()` unchanged, and `addCard` of the card it returns, called next,
gives a collection whose titles are again pairwise different, with the new card last; and
`makeCard` does return a card when fewer than `INT_MAX` cards are held. -/
theorem makeCard_then_addCard_keeps_titles_distinct (qt : Qt) (s : PaletteCardCollection)
    (palette : PaletteId) (title : QString)
    (hdistinct : s.titles.Nodup) (hcreated : ∀ c ∈ s.m_paletteCards, c < s.nextCard) :
    (∀ card s1, s.makeCard qt palette title = some (card, s1) →
      s1.m_paletteCards = s.m_paletteCards ∧ s1.count = s.count ∧
      (s1.addCard card).m_paletteCards = s.m_paletteCards ++ [card] ∧
      (s1.addCard card).titles = s.titles ++ [(s1.heap card).title] ∧
      (s1.addCard card).titles.Nodup) ∧
    (s.count < INT_MAX → ∃ card s1, s.makeCard qt palette title = some (card, s1)) := by
  constructor
  · intro card s1 h
    obtain ⟨e1, e2, -, -, -, -, hother, htitle, -⟩ :=
      makeCard_eq_some qt s palette title card s1 h hcreated
    have hne : ∀ c ∈ s.m_paletteCards, c ≠ card :=
      fun c hcm => e1 ▸ Nat.ne_of_lt (hcreated c hcm)
    have htitles : (s1.addCard card).titles = s.titles ++ [(s1.heap card).title] := by
      simp only [titles, addCard, e2, List.map_append, List.map_cons, List.map_nil]
      congr 1
      apply List.map_congr_left
      intro c hcm
      rw [hother c (hne c hcm)]
    refine ⟨e2, by simp [count, e2], by simp [addCard, e2], htitles, ?_⟩
    rw [htitles]
    exact List.Nodup.append hdistinct (List.nodup_singleton _)
      (by simpa [List.disjoint_singleton] using htitle)
  · exact makeCard_returns qt s palette title

theorem makeCard_then_addCard_keeps_titles_distinct_witness :
    (titled [['P'], ['P', '1']]).titles.Nodup ∧
    (∀ c ∈ (titled [['P'], ['P', '1']]).m_paletteCards, c < (titled [['P'], ['P', '1']]).nextCard) ∧
    (titled [['P'], ['P', '1']]).count < INT_MAX ∧
    ∃ card s1, (titled [['P'], ['P', '1']]).makeCard Qt.c 0 ['P'] = some (card, s1) ∧
      (s1.addCard card).m_paletteCards = [0, 1] ++ [card] ∧
      (s1.addCard card).titles.Nodup := by
  have h := makeCard_then_addCard_keeps_titles_distinct Qt.c (titled [['P'], ['P', '1']]) 0 ['P']
    (by decide) (by decide)
  obtain ⟨card, s1, hmk⟩ := h.2 (by decide)
  have h1 := h.1 card s1 hmk
  exact ⟨by decide, by decide, by decide, card, s1, hmk, h1.2.2.1, h1.2.2.2.2⟩

end PaletteCardCollection

end AzQtComponents
